import Mathlib

/-!
Verification of the up pipeline tool (src/up.go): a shallow embedding of the
capture buffer, line editor, tab expander and viewport renderer, together with
theorems settling the specification claims about them.
-/

namespace Up

/-- Model of the external go-runewidth RuneWidth table, restricted to the rune
ranges this repository exercises: control runes have width 0, a table of East
Asian wide ranges has width 2, every other rune has width 1. -/
def runeWidth (c : Char) : Nat :=
  if c.toNat < 0x20 || (0x7F ≤ c.toNat && c.toNat < 0xA0) then 0
  else if (0x1100 ≤ c.toNat && c.toNat ≤ 0x115F)
      || (0x2E80 ≤ c.toNat && c.toNat ≤ 0x303E)
      || (0x3041 ≤ c.toNat && c.toNat ≤ 0x33FF)
      || (0x3400 ≤ c.toNat && c.toNat ≤ 0x4DBF)
      || (0x4E00 ≤ c.toNat && c.toNat ≤ 0x9FFF)
      || (0xA000 ≤ c.toNat && c.toNat ≤ 0xA4CF)
      || (0xAC00 ≤ c.toNat && c.toNat ≤ 0xD7A3)
      || (0xF900 ≤ c.toNat && c.toNat ≤ 0xFAFF)
      || (0xFF00 ≤ c.toNat && c.toNat ≤ 0xFF60)
      || (0xFFE0 ≤ c.toNat && c.toNat ≤ 0xFFE6) then 2
  else 1

/-- Model of Go unicode.IsSpace: the White_Space code points. -/
def isSpace (c : Char) : Bool :=
  (0x9 ≤ c.toNat && c.toNat ≤ 0xD) || c.toNat = 0x20 || c.toNat = 0x85
    || c.toNat = 0xA0 || c.toNat = 0x1680
    || (0x2000 ≤ c.toNat && c.toNat ≤ 0x200A)
    || c.toNat = 0x2028 || c.toNat = 0x2029 || c.toNat = 0x202F
    || c.toNat = 0x205F || c.toNat = 0x3000

/-! ## The capture buffer (Buf, src/up.go lines 635-756) -/

/-- The three states of a Buf (bufReading, bufEOF, bufPaused in the source). -/
inductive BufStatus
  | reading
  | eof
  | paused
deriving DecidableEq

/-- A Buf: fixed capacity, the bytes written so far (positions 0 to n of the
Go byte array, so data.length models n), and the status field.  Bytes are
modelled as natural numbers. -/
structure Buf where
  capacity : Nat
  data : List Nat
  status : BufStatus
deriving DecidableEq

/-- NewBuf: an empty buffer in the reading state. -/
def newBuf (cap : Nat) : Buf :=
  { capacity := cap, data := [], status := .reading }

/-- One locked update of the capture loop body (Buf.capture): append the chunk
the source read delivered, and promote the status to EOF exactly when the
source signalled EOF.  A full buffer sets the loop-local err to EOF but does
not touch the status field, faithfully to the source. -/
def captureStep (b : Buf) (chunk : List Nat) (eof : Bool) : Buf :=
  { b with
    data := b.data ++ chunk,
    status := if eof then .eof else b.status }

/-- Buf.Pause: pausing is only possible from reading, unpausing only from
paused; every other combination leaves the buffer unchanged. -/
def pauseStep (b : Buf) (p : Bool) : Buf :=
  if p then
    if b.status = .reading then { b with status := .paused } else b
  else
    if b.status = .paused then { b with status := .reading } else b

/-- The whole capture loop run against a producer that delivers the given
chunks and then signals EOF, with no pause: after each chunk the loop exits
early when the buffer became full (err is set to io.EOF in the source), and
otherwise the final source read returns EOF. -/
def captureLoop (b : Buf) : List (List Nat) → Buf
  | [] => captureStep b [] true
  | c :: cs =>
    if (captureStep b c false).data.length = (captureStep b c false).capacity
    then captureStep b c false
    else captureLoop (captureStep b c false) cs

/-- The side condition under which one more capture-loop update can occur on a
buffer: the capture task is still alive (it returns for good once the status is
EOF) and the source read fits the free space of the byte array. -/
def CaptureEnabled (cap : Nat) (b : Buf) (chunk : List Nat) : Prop :=
  b.status ≠ .eof ∧ b.data.length + chunk.length ≤ cap

/-- The states a Buf created with NewBuf cap can reach, under capture-loop
updates and Pause calls. -/
inductive Reachable (cap : Nat) : Buf → Prop
  | init : Reachable cap (newBuf cap)
  | capture {b : Buf} (chunk : List Nat) (eof : Bool) :
      Reachable cap b → CaptureEnabled cap b chunk →
      Reachable cap (captureStep b chunk eof)
  | pause {b : Buf} (p : Bool) :
      Reachable cap b → Reachable cap (pauseStep b p)

/-- One Read call of a non-blocking (snapshot) reader (Buf.NewReader with
blocking = false) holding cursor i, against a caller buffer of size plen:
returns the copied bytes, the new cursor, and whether io.EOF was returned. -/
def snapshotRead (data : List Nat) (i plen : Nat) : List Nat × Nat × Bool :=
  if 0 < ((data.drop i).take plen).length then
    ((data.drop i).take plen, i + ((data.drop i).take plen).length, false)
  else
    ([], i, true)

/-- Drain a snapshot reader: repeatedly Read with a buffer of size plen until
io.EOF, concatenating everything returned. -/
def snapshotDrain (data : List Nat) (i plen : Nat) : List Nat :=
  if h0 : 0 < ((data.drop i).take plen).length then
    ((data.drop i).take plen)
      ++ snapshotDrain data (i + ((data.drop i).take plen).length) plen
  else []
termination_by data.length - i
decreasing_by
  simp only [List.length_take, List.length_drop] at h0 ⊢
  omega

/-- The status glyph Buf.DrawStatus puts at cell (0,0): the switch checks
paused, then EOF, then a full byte array, and defaults to the tilde. -/
def statusIndicator (b : Buf) : Char :=
  if b.status = .paused then '#'
  else if b.status = .eof then ' '
  else if b.data.length = b.capacity then '+'
  else '~'

/-! ## The line editor (Editor, src/up.go lines 344-469) -/

/-- The Editor fields the editing operations touch; the prompt and the
remembered render width lastw only matter for drawing and are omitted. -/
structure Editor where
  value : List Char
  killspace : List Char
  cursor : Nat
deriving DecidableEq

/-- Editor.kill: when the cursor is not at the end, replace killspace with the
tail value[cursor..end]; in every case truncate value at the cursor.  When the
cursor is at the end killspace is left as it was. -/
def kill (e : Editor) : Editor :=
  if e.cursor ≠ e.value.length then
    { e with
      killspace := e.value.drop e.cursor,
      value := e.value.take e.cursor }
  else
    { e with value := e.value.take e.cursor }

/-- The backward scan of Editor.unixWordRubout: starting from a position,
decrement while the position is nonzero and (the rune there is a space or the
rune before it is not a space). -/
def uwrLoop (value : List Char) : Nat → Nat
  | 0 => 0
  | p + 1 =>
    if isSpace (value.getD (p + 1) ' ') || !isSpace (value.getD p ' ') then
      uwrLoop value p
    else p + 1

/-- Editor.unixWordRubout: nothing happens at cursor 0; otherwise scan back
from cursor - 1, replace killspace with value[pos..cursor), delete that slice
from value and move the cursor to pos. -/
def unixWordRubout (e : Editor) : Editor :=
  if e.cursor = 0 then e
  else
    { value := e.value.take (uwrLoop e.value (e.cursor - 1))
        ++ e.value.drop e.cursor,
      killspace := (e.value.drop (uwrLoop e.value (e.cursor - 1))).take
        (e.cursor - uwrLoop e.value (e.cursor - 1)),
      cursor := uwrLoop e.value (e.cursor - 1) }

/-! ## The tab expander (tabExpander, src/up.go lines 910-941) -/

/-- The tab expander as a stream transformer.  The state x is the Go field
t.x, which the source keeps in [0,8): newline and carriage return reset it,
a tab owes 8 - x spaces (the source sets x to x - 8 and then emits a space
per ReadRune until x is zero again), and any other rune advances x by its
rune width modulo 8. -/
def tabExpand (x : Nat) : List Char → List Char
  | [] => []
  | c :: cs =>
    if c = '\n' ∨ c = '\r' then c :: tabExpand 0 cs
    else if c = '\t' then List.replicate (8 - x) ' ' ++ tabExpand 0 cs
    else c :: tabExpand ((x + runeWidth c) % 8) cs

/-- Modelled from the spec: the tab expander described by its words, tracking
the absolute current column, with each tab replaced by the shortest run of
spaces advancing the column to the next multiple of 8, the column reset to 0
at newline and carriage return and advanced by the rune width otherwise. -/
def tabExpandSpec (col : Nat) : List Char → List Char
  | [] => []
  | c :: cs =>
    if c = '\n' ∨ c = '\r' then c :: tabExpandSpec 0 cs
    else if c = '\t' then
      List.replicate (8 - col % 8) ' '
        ++ tabExpandSpec (col + (8 - col % 8)) cs
    else c :: tabExpandSpec (col + runeWidth c) cs

/-! ## The row renderer (RowView, src/up.go lines 578-633) -/

/-- RowView state: the region width, the running column x (negative while the
view is scrolled right by X and the row has not yet reached column 0), the
overflow-left flag, and the width of the last printed rune. -/
structure RowView where
  w : Nat
  x : Int
  overflowLeft : Bool
  lastRuneW : Nat
deriving DecidableEq

/-- newRowView for a view scrolled right by X columns. -/
def newRowView (w x : Nat) : RowView :=
  { w := w, x := -(x : Int), overflowLeft := false, lastRuneW := 1 }

/-- RowView.fill: starting at x0, write count cells of the glyph, skipping
coordinates outside [0, w) exactly as the source's bounds check does.  Writes
are recorded as (coordinate, glyph) pairs. -/
def fillWrites (w : Nat) (x0 : Int) (ch : Char) : Nat → List (Int × Char)
  | 0 => []
  | k + 1 =>
    (if 0 ≤ x0 ∧ x0 < (w : Int) then [(x0, ch)] else [])
      ++ fillWrites w (x0 + 1) ch k

/-- The width PrintCh uses for a rune: max(RuneWidth ch, 1). -/
def chWidth (ch : Char) : Nat := max (runeWidth ch) 1

/-- RowView.PrintCh: the five-way switch of the source, in order: rune
straddling or resuming at the left edge (fill with the left marker), rune
wholly off-left (set the overflow flag), rune starting exactly at the right
edge (overwrite the previous rune's cells with the right marker), rune
straddling the right edge (fill to the edge with the right marker), and the
default draw.  Returns the updated state and the emitted cell writes; the
default branch emits its write unclipped, like the source's putch. -/
def printCh (r : RowView) (ch : Char) : RowView × List (Int × Char) :=
  if (r.overflowLeft = true ∧ r.x = 0) ∨ (r.x < 0 ∧ 0 < r.x + (chWidth ch : Int)) then
    ({ r with x := r.x + (chWidth ch : Int), lastRuneW := chWidth ch },
      fillWrites r.w 0 '«' (r.x + (chWidth ch : Int)).toNat)
  else if r.x < 0 then
    ({ r with
        x := r.x + (chWidth ch : Int)
        lastRuneW := chWidth ch
        overflowLeft := true }, [])
  else if r.x = (r.w : Int) then
    ({ r with x := r.x + (chWidth ch : Int), lastRuneW := chWidth ch },
      fillWrites r.w (r.x - (r.lastRuneW : Int)) '»' r.lastRuneW)
  else if r.x < (r.w : Int) ∧ (r.w : Int) < r.x + (chWidth ch : Int) then
    ({ r with x := r.x + (chWidth ch : Int), lastRuneW := chWidth ch },
      fillWrites r.w r.x '»' ((r.w : Int) - r.x).toNat)
  else
    ({ r with x := r.x + (chWidth ch : Int), lastRuneW := chWidth ch },
      [(r.x, ch)])

/-- RowView.EndLine: pad the rest of the row with spaces from max(0, x); if
that start is column 0 and content was clipped on the left, put a single left
marker there first. -/
def endLine (r : RowView) : List (Int × Char) :=
  if max 0 r.x = 0 ∧ r.overflowLeft = true then
    (0, '«') :: fillWrites r.w 1 ' ' (((r.w : Int) - 1).toNat)
  else
    fillWrites r.w (max 0 r.x) ' ' (((r.w : Int) - max 0 r.x).toNat)

/-- Print every rune of a row in order, collecting the writes. -/
def printAll (r : RowView) : List Char → RowView × List (Int × Char)
  | [] => (r, [])
  | ch :: cs =>
    ((printAll (printCh r ch).1 cs).1,
      (printCh r ch).2 ++ (printAll (printCh r ch).1 cs).2)

/-- All cell writes of one row of the viewport: print the runes, then EndLine. -/
def renderLineWrites (w x : Nat) (line : List Char) : List (Int × Char) :=
  (printAll (newRowView w x) line).2
    ++ endLine (printAll (newRowView w x) line).1

/-- Apply one cell write to a row of cells, discarding coordinates outside
[0, w) the way the Region built by TuiRegion does. -/
def applyRowWrite (w : Nat) (cells : Int → Char) (wr : Int × Char) : Int → Char :=
  fun i => if i = wr.1 ∧ 0 ≤ wr.1 ∧ wr.1 < (w : Int) then wr.2 else cells i

/-- Apply a list of cell writes in order. -/
def applyRowWrites (w : Nat) (cells : Int → Char) (ws : List (Int × Char)) : Int → Char :=
  ws.foldl (applyRowWrite w) cells

/-- The rendered cells of one row, over a cleared (all-spaces) row. -/
def renderLineCells (w x : Nat) (line : List Char) : Int → Char :=
  applyRowWrites w (fun _ => ' ') (renderLineWrites w x line)

/-- The display width of a row: the sum of the PrintCh widths of its runes. -/
def displayWidth (line : List Char) : Nat :=
  (line.map chWidth).sum

/-! ## The viewport (BufView.DrawTo, src/up.go lines 478-522) -/

/-- Split off the first line: the runes before the first newline, and, when a
newline was found, the rest after it. -/
def breakLine : List Char → List Char × Option (List Char)
  | [] => ([], none)
  | c :: cs =>
    if c = '\n' then ([], some cs)
    else ((breakLine cs).1.cons c, (breakLine cs).2)

/-- The PgDn line-skipping loop at the top of DrawTo: discard y complete
lines; if EOF is reached first, the partial line that ReadBytes returned
becomes the whole remaining content, as in the source. -/
def skipLines : Nat → List Char → List Char
  | 0, cs => cs
  | y + 1, cs =>
    match breakLine cs with
    | (_, some rest) => skipLines y rest
    | (line, none) => line

/-- Split a rune stream into its lines at newlines (the newline runes are
consumed by the row loop of DrawTo and appear in no line). -/
def splitLines : List Char → List (List Char)
  | [] => [[]]
  | c :: cs =>
    if c = '\n' then [] :: splitLines cs
    else
      match splitLines cs with
      | l :: ls => (c :: l) :: ls
      | [] => [[c]]

/-- The rows the DrawTo row loop renders into a region of height h: the first
h lines of the content, then fresh rows that only get an EndLine, which is
exactly rendering an empty line. -/
def rowsOf (h : Nat) (ls : List (List Char)) : List (List Char) :=
  ls.take h ++ List.replicate (h - ls.length) []

/-- The line streams DrawTo renders: skip Y lines of the buffer content, pipe
the rest through the tab expander (fresh, column 0), and split into rows. -/
def drawToLines (h y : Nat) (content : List Char) : List (List Char) :=
  rowsOf h (splitLines (tabExpand 0 (skipLines y content)))

/-- BufView.DrawTo as a grid of rendered rows. -/
def drawToRows (w h x y : Nat) (content : List Char) : List (Int → Char) :=
  (drawToLines h y content).map (renderLineCells w x)

/-- Tag each row's writes with its y coordinate. -/
def drawToWritesAux (w x : Nat) (yRow : Int) : List (List Char) → List (Int × Int × Char)
  | [] => []
  | line :: rest =>
    (renderLineWrites w x line).map (fun wr => (wr.1, yRow, wr.2))
      ++ drawToWritesAux w x (yRow + 1) rest

/-- Every cell write BufView.DrawTo emits into its region, with coordinates. -/
def drawToWrites (w h x y : Nat) (content : List Char) : List (Int × Int × Char) :=
  drawToWritesAux w x 0 (drawToLines h y content)

/-- TuiRegion's SetCell: apply one write to the screen, discarding any write
whose coordinates fall outside the w by h rectangle. -/
def applyGridWrite (w h : Nat) (g : Int × Int → Char) (wr : Int × Int × Char) :
    Int × Int → Char :=
  fun p =>
    if p.1 = wr.1 ∧ p.2 = wr.2.1 ∧ 0 ≤ wr.1 ∧ wr.1 < (w : Int)
        ∧ 0 ≤ wr.2.1 ∧ wr.2.1 < (h : Int) then
      wr.2.2
    else g p

/-- Apply a list of grid writes through TuiRegion clipping. -/
def applyGridWrites (w h : Nat) (g : Int × Int → Char) (ws : List (Int × Int × Char)) :
    Int × Int → Char :=
  ws.foldl (applyGridWrite w h) g

/-! ## Script writing (writeScript, src/up.go lines 806-874) -/

/-- The contents written in the try_file branch of writeScript:
a shebang from the first shell argv word, then the command. -/
def tryFileContents (shell : List String) (command : String) : String :=
  "#!" ++ shell.headD "" ++ "\n" ++ command ++ "\n"

/-- How Go fmt formats a string slice with the %s verb: the elements joined by
single spaces, between square brackets. -/
def goStringSliceFormat (ss : List String) : String :=
  "[" ++ String.intercalate " " ss ++ "]"

/-- The contents written in the fallback_tmp branch of writeScript: the source
passes the whole shell slice, not its first word, to the %s verb. -/
def fallbackTmpContents (shell : List String) (command : String) : String :=
  "#!" ++ goStringSliceFormat shell ++ "\n" ++ command ++ "\n"

/-! ## Helper lemmas about the capture buffer -/

theorem captureStep_capacity (b : Buf) (c : List Nat) (e : Bool) :
    (captureStep b c e).capacity = b.capacity := rfl

theorem pauseStep_data (b : Buf) (p : Bool) : (pauseStep b p).data = b.data := by
  unfold pauseStep
  split <;> split <;> rfl

theorem pauseStep_capacity (b : Buf) (p : Bool) :
    (pauseStep b p).capacity = b.capacity := by
  unfold pauseStep
  split <;> split <;> rfl

theorem captureLoop_data :
    ∀ (chunks : List (List Nat)) (b : Buf),
      b.data.length + chunks.flatten.length ≤ b.capacity →
      (captureLoop b chunks).data = b.data ++ chunks.flatten := by
  intro chunks
  induction chunks with
  | nil =>
    intro b hb
    simp [captureLoop, captureStep]
  | cons c cs ih =>
    intro b hb
    rw [List.flatten_cons] at hb ⊢
    rw [List.length_append] at hb
    rw [captureLoop]
    split
    · rename_i hfull
      have hfull2 : b.data.length + c.length = b.capacity := by
        simpa [captureStep] using hfull
      have hnil : cs.flatten = [] := by
        rw [← List.length_eq_zero]
        omega
      simp [captureStep, hnil]
    · rename_i hnotfull
      rw [ih]
      · simp [captureStep, List.append_assoc]
      · have hcap2 : (captureStep b c false).capacity = b.capacity := rfl
        have hdat2 : (captureStep b c false).data.length = b.data.length + c.length := by
          simp [captureStep]
        rw [hcap2, hdat2]
        omega

theorem drop_min_length (l : List Nat) (n : Nat) :
    l.drop (min n l.length) = l.drop n := by
  rcases le_total n l.length with h | h
  · rw [min_eq_left h]
  · rw [min_eq_right h, List.drop_length, List.drop_eq_nil_of_le h]

theorem snapshotDrain_drop (plen : Nat) (hp : 1 ≤ plen) :
    ∀ (k : Nat) (data : List Nat) (i : Nat), data.length ≤ i + k →
      snapshotDrain data i plen = data.drop i := by
  intro k
  induction k with
  | zero =>
    intro data i hik
    rw [snapshotDrain, dif_neg, List.drop_eq_nil_of_le (by omega)]
    simp only [List.length_take, List.length_drop]
    omega
  | succ k ih =>
    intro data i hik
    by_cases hlt : i < data.length
    · rw [snapshotDrain, dif_pos]
      · have hclen : ((data.drop i).take plen).length = min plen (data.length - i) := by
          simp [List.length_take]
        rw [ih data (i + ((data.drop i).take plen).length) (by rw [hclen]; omega)]
        have hdd : data.drop (i + ((data.drop i).take plen).length)
            = (data.drop i).drop ((data.drop i).take plen).length := by
          rw [List.drop_drop, Nat.add_comm]
        rw [hdd]
        have hlen2 : ((data.drop i).take plen).length = min plen (data.drop i).length := by
          simp [List.length_take]
        rw [hlen2, drop_min_length, List.take_append_drop]
      · simp only [List.length_take, List.length_drop]
        omega
    · rw [snapshotDrain, dif_neg, List.drop_eq_nil_of_le (by omega)]
      simp only [List.length_take, List.length_drop]
      omega

/-- C1: for every producer byte sequence B (delivered as any sequence of read
chunks) with total length at most the capacity, captured with no pause until
the source signals EOF, a snapshot reader opened afterwards returns exactly
the bytes of B in order (draining with any positive caller buffer size), and
its next Read then returns io.EOF. -/
theorem c1_snapshot_reader_returns_captured_bytes
    (cap plen : Nat) (chunks : List (List Nat))
    (hlen : chunks.flatten.length ≤ cap) (hp : 1 ≤ plen) :
    snapshotDrain (captureLoop (newBuf cap) chunks).data 0 plen = chunks.flatten ∧
    snapshotRead (captureLoop (newBuf cap) chunks).data chunks.flatten.length plen
      = ([], chunks.flatten.length, true) := by
  have hdata : (captureLoop (newBuf cap) chunks).data = chunks.flatten := by
    have h := captureLoop_data chunks (newBuf cap) (by simpa [newBuf] using hlen)
    simpa [newBuf] using h
  constructor
  · rw [hdata, snapshotDrain_drop plen hp (chunks.flatten.length) chunks.flatten 0 (by omega),
      List.drop_zero]
  · rw [hdata, snapshotRead, if_neg]
    simp

theorem c1_witness :
    ([[1, 2], [3]] : List (List Nat)).flatten.length ≤ 4 ∧ 1 ≤ 2 ∧
    snapshotDrain (captureLoop (newBuf 4) [[1, 2], [3]]).data 0 2 = [1, 2, 3] := by
  refine ⟨by decide, by decide, ?_⟩
  exact (c1_snapshot_reader_returns_captured_bytes 4 2 [[1, 2], [3]]
    (by decide) (by decide)).1.trans (by decide)

/-- C2: in every reachable Buf state the filled length n is between 0 and the
capacity (the lower bound is inherent in the Nat model); n never decreases
across a capture-loop update or a Pause call; once the status is EOF a Pause
call leaves the buffer entirely unchanged and no further capture-loop update
is enabled. -/
theorem c2_capture_buffer_invariants :
    (∀ cap b, Reachable cap b → b.capacity = cap ∧ b.data.length ≤ b.capacity) ∧
    (∀ b chunk e, b.data.length ≤ (captureStep b chunk e).data.length) ∧
    (∀ b p, (pauseStep b p).data = b.data) ∧
    (∀ b p, b.status = .eof → pauseStep b p = b) ∧
    (∀ cap b chunk, b.status = .eof → ¬ CaptureEnabled cap b chunk) := by
  refine ⟨?_, ?_, ?_, ?_, ?_⟩
  · intro cap b h
    induction h with
    | init => simp [newBuf]
    | capture chunk eof hr hen ih =>
      refine ⟨ih.1, ?_⟩
      simp only [captureStep, List.length_append, captureStep_capacity]
      rw [ih.1]
      exact hen.2
    | pause p hr ih =>
      rw [pauseStep_capacity, pauseStep_data]
      exact ih
  · intro b chunk e
    simp [captureStep]
  · exact pauseStep_data
  · intro b p h
    cases p <;> simp [pauseStep, h]
  · intro cap b chunk h hen
    exact hen.1 h

theorem c2_witness :
    (captureStep (newBuf 2) [5] false).data.length
        ≤ (captureStep (newBuf 2) [5] false).capacity ∧
    pauseStep ⟨2, [5], .eof⟩ true = ⟨2, [5], .eof⟩ := by
  constructor
  · exact (c2_capture_buffer_invariants.1 2 _
      (Reachable.capture [5] false Reachable.init ⟨by decide, by decide⟩)).2
  · exact c2_capture_buffer_invariants.2.2.2.1 ⟨2, [5], .eof⟩ true rfl

/-! ## Claims about the editor, the tab expander, the status glyph and the
script files -/

/-- C3: unixWordRubout does nothing at cursor 0; for a positive cursor it
deletes exactly the slice from the backward-scan position to the cursor,
placing it into killspace; and the 17-rune example of the spec behaves as
stated. -/
theorem c3_unix_word_rubout_spec :
    (∀ e : Editor, e.cursor = 0 → unixWordRubout e = e) ∧
    (∀ e : Editor, 0 < e.cursor →
      unixWordRubout e =
        { value := e.value.take (uwrLoop e.value (e.cursor - 1))
            ++ e.value.drop e.cursor
          killspace := (e.value.drop (uwrLoop e.value (e.cursor - 1))).take
            (e.cursor - uwrLoop e.value (e.cursor - 1))
          cursor := uwrLoop e.value (e.cursor - 1) }) ∧
    unixWordRubout ⟨"lorem ipsum dolor".toList, [], 12⟩
      = ⟨"lorem dolor".toList, "ipsum ".toList, 6⟩ := by
  refine ⟨?_, ?_, by decide⟩
  · intro e h
    rw [unixWordRubout, if_pos h]
  · intro e h
    rw [unixWordRubout, if_neg (by omega)]

theorem c3_witness :
    unixWordRubout ⟨['u', 'p'], [], 0⟩ = ⟨['u', 'p'], [], 0⟩ :=
  c3_unix_word_rubout_spec.1 ⟨['u', 'p'], [], 0⟩ rfl

theorem tabExpand_no_tab (cs : List Char) :
    ∀ x, '\t' ∉ cs → tabExpand x cs = cs := by
  induction cs with
  | nil => intro x h; rfl
  | cons c cs ih =>
    intro x h
    have hc : c ≠ '\t' := fun hh => h (hh ▸ List.mem_cons_self c cs)
    have hcs : '\t' ∉ cs := fun hh => h (List.mem_cons_of_mem c hh)
    rw [tabExpand]
    by_cases hnl : c = '\n' ∨ c = '\r'
    · rw [if_pos hnl, ih 0 hcs]
    · rw [if_neg hnl, if_neg hc, ih _ hcs]

theorem tabExpand_spec_eq (cs : List Char) :
    ∀ col, tabExpand (col % 8) cs = tabExpandSpec col cs := by
  induction cs with
  | nil => intro col; rfl
  | cons c cs ih =>
    intro col
    rw [tabExpand, tabExpandSpec]
    by_cases hnl : c = '\n' ∨ c = '\r'
    · rw [if_pos hnl, if_pos hnl]
      have h0 := ih 0
      rw [Nat.zero_mod] at h0
      rw [h0]
    · rw [if_neg hnl, if_neg hnl]
      by_cases ht : c = '\t'
      · rw [if_pos ht, if_pos ht]
        have h2 : (col + (8 - col % 8)) % 8 = 0 := by omega
        have h0 := ih (col + (8 - col % 8))
        rw [h2] at h0
        rw [h0]
      · rw [if_neg ht, if_neg ht]
        have h3 : (col % 8 + runeWidth c) % 8 = (col + runeWidth c) % 8 := by
          omega
        rw [h3, ih (col + runeWidth c)]

/-- C6: on an input with no tabs the tab expander is the identity, and on any
input its output is the input with every tab replaced by the shortest run of
spaces advancing the current column to the next multiple of 8, the column
being reset at newline and carriage return and advanced by the rune width
otherwise (the latter stated as agreement with the spec-side expander that
tracks the absolute column). -/
theorem c6_tab_expander_spec :
    (∀ cs : List Char, '\t' ∉ cs → tabExpand 0 cs = cs) ∧
    (∀ cs : List Char, tabExpand 0 cs = tabExpandSpec 0 cs) := by
  constructor
  · intro cs h
    exact tabExpand_no_tab cs 0 h
  · intro cs
    have h := tabExpand_spec_eq cs 0
    rwa [Nat.zero_mod] at h

theorem c6_witness :
    tabExpand 0 ['u', 'p'] = ['u', 'p'] :=
  c6_tab_expander_spec.1 ['u', 'p'] (by decide)

/-- C7 counterexample: with value "ab", cursor 2 (= end) and killspace "xy",
kill leaves killspace as "xy"; the claim demands that it become empty. -/
theorem c7_kill_counterexample :
    (kill ⟨['a', 'b'], ['x', 'y'], 2⟩).killspace = ['x', 'y'] ∧
    (kill ⟨['a', 'b'], ['x', 'y'], 2⟩).killspace ≠ [] := by decide

/-- C7 amended: kill truncates value at the cursor and keeps the cursor; it
replaces killspace with the removed slice value[cursor..end] only when the
cursor is not at the end, and leaves killspace unchanged when it is. -/
theorem c7_kill_amended (e : Editor) :
    (kill e).value = e.value.take e.cursor ∧
    (kill e).cursor = e.cursor ∧
    (kill e).killspace =
      (if e.cursor = e.value.length then e.killspace
       else e.value.drop e.cursor) := by
  by_cases h : e.cursor = e.value.length
  · rw [kill, if_neg (not_not_intro h)]
    exact ⟨rfl, rfl, by rw [if_pos h]⟩
  · rw [kill, if_pos h]
    exact ⟨rfl, rfl, by rw [if_neg h]⟩

theorem c7_witness :
    (kill ⟨['a', 'b'], [], 1⟩).value = ['a'] ∧
    (kill ⟨['a', 'b'], [], 1⟩).killspace = ['b'] :=
  ⟨(c7_kill_amended ⟨['a', 'b'], [], 1⟩).1.trans (by decide),
    (c7_kill_amended ⟨['a', 'b'], [], 1⟩).2.2.trans (by decide)⟩

/-- C8 counterexample: a paused buffer whose byte array is full satisfies
n = capacity, yet the indicator is the pause glyph, not the plus. -/
theorem c8_status_indicator_counterexample :
    (⟨1, [7], .paused⟩ : Buf).data.length = (⟨1, [7], .paused⟩ : Buf).capacity ∧
    statusIndicator ⟨1, [7], .paused⟩ ≠ '+' ∧
    statusIndicator ⟨1, [7], .paused⟩ = '#' := by decide

/-- C8 amended: the indicator is the hash when paused, the space at EOF, the
plus when still reading with a full byte array, and the tilde when still
reading with room left. -/
theorem c8_status_indicator_amended (b : Buf) :
    (b.status = .paused → statusIndicator b = '#') ∧
    (b.status = .eof → statusIndicator b = ' ') ∧
    (b.status = .reading → b.data.length = b.capacity → statusIndicator b = '+') ∧
    (b.status = .reading → b.data.length < b.capacity → statusIndicator b = '~') := by
  refine ⟨?_, ?_, ?_, ?_⟩
  · intro h
    simp [statusIndicator, h]
  · intro h
    simp [statusIndicator, h]
  · intro h hfull
    simp [statusIndicator, h, hfull]
  · intro h hlt
    rw [statusIndicator, if_neg (by simp [h]), if_neg (by simp [h]),
      if_neg (by omega)]

theorem c8_witness : statusIndicator ⟨2, [1], .reading⟩ = '~' :=
  (c8_status_indicator_amended ⟨2, [1], .reading⟩).2.2.2 rfl (by decide)

/-- C9: at the failing input shell = [/bin/bash, -c], command = grep x, the
try_file branch writes the contents the claim states, but the fallback_tmp
branch formats the whole shell slice into the shebang and so writes different
contents from the ones the claim (and the spec's intent) demands. -/
theorem c9_script_contents_failing_input :
    tryFileContents ["/bin/bash", "-c"] "grep x" = "#!/bin/bash\ngrep x\n" ∧
    fallbackTmpContents ["/bin/bash", "-c"] "grep x" = "#![/bin/bash -c]\ngrep x\n" ∧
    fallbackTmpContents ["/bin/bash", "-c"] "grep x" ≠ "#!/bin/bash\ngrep x\n" := by
  refine ⟨rfl, rfl, by decide⟩

/-! ## Helper lemmas about the row renderer -/

theorem runeWidth_le_two (c : Char) : runeWidth c ≤ 2 := by
  rw [runeWidth]
  split
  · omega
  · split <;> omega

theorem chWidth_pos (c : Char) : 1 ≤ chWidth c := Nat.le_max_right _ 1

theorem chWidth_le_two (c : Char) : chWidth c ≤ 2 := by
  rw [chWidth]
  have h := runeWidth_le_two c
  omega

theorem applyRowWrites_nil (w : Nat) (cells : Int → Char) :
    applyRowWrites w cells [] = cells := rfl

theorem applyRowWrites_cons (w : Nat) (cells : Int → Char) (a : Int × Char)
    (l : List (Int × Char)) :
    applyRowWrites w cells (a :: l)
      = applyRowWrites w (applyRowWrite w cells a) l := rfl

theorem applyRowWrites_append (w : Nat) (cells : Int → Char)
    (l1 l2 : List (Int × Char)) :
    applyRowWrites w cells (l1 ++ l2)
      = applyRowWrites w (applyRowWrites w cells l1) l2 := by
  simp [applyRowWrites, List.foldl_append]

theorem applyRowWrites_single (w : Nat) (cells : Int → Char) (q : Int)
    (a : Int × Char) :
    applyRowWrites w cells [a] q
      = if q = a.1 ∧ 0 ≤ a.1 ∧ a.1 < (w : Int) then a.2 else cells q := rfl

theorem applyRowWrites_fill (w : Nat) (ch : Char) :
    ∀ (k : Nat) (x0 : Int) (cells : Int → Char) (p : Int),
      applyRowWrites w cells (fillWrites w x0 ch k) p =
        if x0 ≤ p ∧ p < x0 + (k : Int) ∧ 0 ≤ p ∧ p < (w : Int) then ch
        else cells p := by
  intro k
  induction k with
  | zero =>
    intro x0 cells p
    rw [fillWrites, applyRowWrites_nil, if_neg]
    omega
  | succ k ih =>
    intro x0 cells p
    rw [fillWrites, applyRowWrites_append, ih]
    by_cases hin : x0 + 1 ≤ p ∧ p < x0 + 1 + (k : Int) ∧ 0 ≤ p ∧ p < (w : Int)
    · rw [if_pos hin, if_pos (by push_cast at hin ⊢; omega)]
    · rw [if_neg hin]
      by_cases hx0 : p = x0 ∧ 0 ≤ x0 ∧ x0 < (w : Int)
      · have hwr : applyRowWrites w cells
            (if 0 ≤ x0 ∧ x0 < (w : Int) then [(x0, ch)] else []) p = ch := by
          rw [if_pos ⟨hx0.2.1, hx0.2.2⟩, applyRowWrites_single, if_pos ⟨hx0.1, hx0.2.1, hx0.2.2⟩]
        rw [hwr, if_pos (by push_cast; omega)]
      · have hwr : applyRowWrites w cells
            (if 0 ≤ x0 ∧ x0 < (w : Int) then [(x0, ch)] else []) p = cells p := by
          split
          · rw [applyRowWrites_single, if_neg]
            rename_i hrange
            intro hc
            exact hx0 ⟨hc.1, hrange⟩
          · rfl
        rw [hwr, if_neg]
        push_cast at hin ⊢
        omega

theorem printCh_x (r : RowView) (ch : Char) :
    ((printCh r ch).1).x = r.x + (chWidth ch : Int) := by
  rw [printCh]
  split_ifs <;> rfl

theorem printCh_w (r : RowView) (ch : Char) : ((printCh r ch).1).w = r.w := by
  rw [printCh]
  split_ifs <;> rfl

theorem printCh_lastRuneW (r : RowView) (ch : Char) :
    ((printCh r ch).1).lastRuneW = chWidth ch := by
  rw [printCh]
  split_ifs <;> rfl

theorem displayWidth_cons (c : Char) (cs : List Char) :
    displayWidth (c :: cs) = chWidth c + displayWidth cs := by
  simp [displayWidth]

theorem printAll_nil (r : RowView) : printAll r [] = (r, []) := rfl

theorem printAll_cons (r : RowView) (c : Char) (cs : List Char) :
    printAll r (c :: cs)
      = ((printAll (printCh r c).1 cs).1,
          (printCh r c).2 ++ (printAll (printCh r c).1 cs).2) := rfl

theorem printAll_x (cs : List Char) :
    ∀ r : RowView, ((printAll r cs).1).x = r.x + (displayWidth cs : Int) := by
  induction cs with
  | nil =>
    intro r
    simp [printAll_nil, displayWidth]
  | cons c cs ih =>
    intro r
    rw [printAll_cons]
    have h := ih (printCh r c).1
    rw [h, printCh_x, displayWidth_cons]
    push_cast
    ring

theorem printAll_w (cs : List Char) :
    ∀ r : RowView, ((printAll r cs).1).w = r.w := by
  induction cs with
  | nil => intro r; rfl
  | cons c cs ih =>
    intro r
    rw [printAll_cons]
    have h := ih (printCh r c).1
    rw [h, printCh_w]

/-- Invariant carried along one row for the right-edge marker: the column has
not yet passed the right edge, or the last visible cell already holds the
right marker (and then stays that way). -/
def RightInv (W : Nat) (r : RowView) (cells : Int → Char) : Prop :=
  r.w = W ∧ 1 ≤ r.lastRuneW ∧ r.lastRuneW ≤ 2 ∧
    (r.x ≤ (W : Int) ∨ cells ((W : Int) - 1) = '»')

theorem rightInv_printCh (W : Nat) (hW : 2 ≤ W) (r : RowView)
    (cells : Int → Char) (ch : Char) (h : RightInv W r cells) :
    RightInv W (printCh r ch).1 (applyRowWrites W cells (printCh r ch).2) := by
  obtain ⟨hw, hl1, hl2, hdisj⟩ := h
  have hcw1 : 1 ≤ chWidth ch := chWidth_pos ch
  have hcw2 : chWidth ch ≤ 2 := chWidth_le_two ch
  rw [printCh]
  split_ifs with h1 h2 h3 h4
  · refine ⟨hw, hcw1, hcw2, Or.inl ?_⟩
    show r.x + (chWidth ch : Int) ≤ (W : Int)
    rcases h1 with ⟨_, hx0⟩ | ⟨hxneg, _⟩ <;> omega
  · refine ⟨hw, hcw1, hcw2, Or.inl ?_⟩
    show r.x + (chWidth ch : Int) ≤ (W : Int)
    omega
  · refine ⟨hw, hcw1, hcw2, Or.inr ?_⟩
    show applyRowWrites W cells
      (fillWrites r.w (r.x - (r.lastRuneW : Int)) '»' r.lastRuneW) ((W : Int) - 1) = '»'
    rw [hw] at h3 ⊢
    rw [applyRowWrites_fill, if_pos (by omega)]
  · refine ⟨hw, hcw1, hcw2, Or.inr ?_⟩
    show applyRowWrites W cells
      (fillWrites r.w r.x '»' (((r.w : Int) - r.x).toNat)) ((W : Int) - 1) = '»'
    rw [hw] at h4 ⊢
    rw [applyRowWrites_fill, if_pos (by omega)]
  · by_cases hx : r.x ≤ (W : Int)
    · refine ⟨hw, hcw1, hcw2, Or.inl ?_⟩
      show r.x + (chWidth ch : Int) ≤ (W : Int)
      rw [hw] at h3 h4
      omega
    · rcases hdisj with hle | hch
      · exact absurd hle hx
      · refine ⟨hw, hcw1, hcw2, Or.inr ?_⟩
        show applyRowWrites W cells [(r.x, ch)] ((W : Int) - 1) = '»'
        rw [applyRowWrites_single, if_neg (by omega)]
        exact hch

theorem rightInv_printAll (W : Nat) (hW : 2 ≤ W) (cs : List Char) :
    ∀ (r : RowView) (cells : Int → Char), RightInv W r cells →
      RightInv W (printAll r cs).1 (applyRowWrites W cells (printAll r cs).2) := by
  induction cs with
  | nil =>
    intro r cells h
    rw [printAll_nil, applyRowWrites_nil]
    exact h
  | cons c cs ih =>
    intro r cells h
    rw [printAll_cons]
    rw [applyRowWrites_append]
    exact ih (printCh r c).1 _ (rightInv_printCh W hW r cells c h)

theorem rightInv_endLine (W : Nat) (hW : 1 ≤ W) (r : RowView)
    (cells : Int → Char) (hw : r.w = W) (hch : cells ((W : Int) - 1) = '»')
    (hx : (W : Int) < r.x) :
    applyRowWrites W cells (endLine r) ((W : Int) - 1) = '»' := by
  rw [endLine, if_neg]
  · have hmax : max 0 r.x = r.x := max_eq_right (by omega)
    have hcnt : (((r.w : Int) - max 0 r.x).toNat) = 0 := by
      rw [hmax, hw]
      omega
    rw [hcnt, fillWrites, applyRowWrites_nil]
    exact hch
  · intro hcond
    have hmax : max 0 r.x = r.x := max_eq_right (by omega)
    rw [hmax] at hcond
    omega
/-- Invariant carried along one row for the left-edge marker, for a view
scrolled right: either the column is still at or left of the edge with the
overflow flag raised, or the column has passed the edge and cell 0 already
holds the left marker. -/
def LeftInv (W : Nat) (r : RowView) (cells : Int → Char) : Prop :=
  r.w = W ∧ r.lastRuneW ≤ 2 ∧
    ((r.x ≤ 0 ∧ r.overflowLeft = true) ∨ (0 < r.x ∧ cells 0 = '«'))

theorem leftInv_printCh (W : Nat) (hW : 3 ≤ W) (r : RowView)
    (cells : Int → Char) (ch : Char) (h : LeftInv W r cells) :
    LeftInv W (printCh r ch).1 (applyRowWrites W cells (printCh r ch).2) := by
  obtain ⟨hw, hl2, hdisj⟩ := h
  have hcw1 : 1 ≤ chWidth ch := chWidth_pos ch
  have hcw2 : chWidth ch ≤ 2 := chWidth_le_two ch
  rw [printCh]
  split_ifs with h1 h2 h3 h4
  · refine ⟨hw, chWidth_le_two ch, Or.inr ⟨?_, ?_⟩⟩
    · show 0 < r.x + (chWidth ch : Int)
      rcases h1 with ⟨_, hx0⟩ | ⟨_, hpos⟩ <;> omega
    · show applyRowWrites W cells
        (fillWrites r.w 0 '«' ((r.x + (chWidth ch : Int)).toNat)) 0 = '«'
      rw [hw, applyRowWrites_fill, if_pos]
      refine ⟨le_refl 0, ?_, le_refl 0, by omega⟩
      rcases h1 with ⟨_, hx0⟩ | ⟨_, hpos⟩ <;> omega
  · refine ⟨hw, chWidth_le_two ch, Or.inl ⟨?_, rfl⟩⟩
    show r.x + (chWidth ch : Int) ≤ 0
    rcases not_or.mp h1 with ⟨_, hno⟩
    rcases not_and_or.mp hno with hc | hc
    · exact absurd h2 hc
    · omega
  · rcases hdisj with ⟨hx0, _⟩ | ⟨hxpos, hch⟩
    · exact absurd h3 (by rw [hw]; omega)
    · refine ⟨hw, chWidth_le_two ch, Or.inr ⟨?_, ?_⟩⟩
      · show 0 < r.x + (chWidth ch : Int)
        omega
      · show applyRowWrites W cells
          (fillWrites r.w (r.x - (r.lastRuneW : Int)) '»' r.lastRuneW) 0 = '«'
        rw [hw] at h3 ⊢
        rw [applyRowWrites_fill, if_neg (by omega)]
        exact hch
  · rcases hdisj with ⟨hx0, _⟩ | ⟨hxpos, hch⟩
    · rw [hw] at h4
      exact absurd h4 (by omega)
    · refine ⟨hw, chWidth_le_two ch, Or.inr ⟨?_, ?_⟩⟩
      · show 0 < r.x + (chWidth ch : Int)
        omega
      · show applyRowWrites W cells
          (fillWrites r.w r.x '»' (((r.w : Int) - r.x).toNat)) 0 = '«'
        rw [hw, applyRowWrites_fill, if_neg (by omega)]
        exact hch
  · rcases hdisj with ⟨hx0, hofl⟩ | ⟨hxpos, hch⟩
    · exact absurd (Or.inl ⟨hofl, by omega⟩) h1
    · refine ⟨hw, chWidth_le_two ch, Or.inr ⟨?_, ?_⟩⟩
      · show 0 < r.x + (chWidth ch : Int)
        omega
      · show applyRowWrites W cells [(r.x, ch)] 0 = '«'
        rw [applyRowWrites_single, if_neg (by omega)]
        exact hch

theorem leftInv_start (W : Nat) (hW : 1 ≤ W) (r : RowView)
    (cells : Int → Char) (ch : Char) (hw : r.w = W) (hxneg : r.x < 0) :
    LeftInv W (printCh r ch).1 (applyRowWrites W cells (printCh r ch).2) := by
  have hcw1 : 1 ≤ chWidth ch := chWidth_pos ch
  rw [printCh]
  split_ifs with h1
  · have hpos : 0 < r.x + (chWidth ch : Int) := by
      rcases h1 with ⟨_, hx0⟩ | ⟨_, hp⟩ <;> omega
    refine ⟨hw, chWidth_le_two ch, Or.inr ⟨?_, ?_⟩⟩
    · show 0 < r.x + (chWidth ch : Int)
      exact hpos
    · show applyRowWrites W cells
        (fillWrites r.w 0 '«' ((r.x + (chWidth ch : Int)).toNat)) 0 = '«'
      rw [hw, applyRowWrites_fill, if_pos ⟨le_refl 0, by omega, le_refl 0, by omega⟩]
  · refine ⟨hw, chWidth_le_two ch, Or.inl ⟨?_, rfl⟩⟩
    show r.x + (chWidth ch : Int) ≤ 0
    rcases not_or.mp h1 with ⟨_, hno⟩
    rcases not_and_or.mp hno with hc | hc
    · exact absurd hxneg hc
    · omega

theorem leftInv_printAll (W : Nat) (hW : 3 ≤ W) (cs : List Char) :
    ∀ (r : RowView) (cells : Int → Char), LeftInv W r cells →
      LeftInv W (printAll r cs).1 (applyRowWrites W cells (printAll r cs).2) := by
  induction cs with
  | nil =>
    intro r cells h
    rw [printAll_nil, applyRowWrites_nil]
    exact h
  | cons c cs ih =>
    intro r cells h
    rw [printAll_cons, applyRowWrites_append]
    exact ih (printCh r c).1 _ (leftInv_printCh W hW r cells c h)

theorem leftInv_endLine (W : Nat) (hW : 1 ≤ W) (r : RowView)
    (cells : Int → Char) (h : LeftInv W r cells) :
    applyRowWrites W cells (endLine r) 0 = '«' := by
  obtain ⟨hw, _, hdisj⟩ := h
  rcases hdisj with ⟨hx0, hofl⟩ | ⟨hxpos, hch⟩
  · rw [endLine, if_pos ⟨max_eq_left hx0, hofl⟩, hw, applyRowWrites_cons,
      applyRowWrites_fill, if_neg (by omega)]
    show (if (0 : Int) = 0 ∧ (0 : Int) ≤ 0 ∧ (0 : Int) < (W : Int) then '«'
      else cells 0) = '«'
    rw [if_pos ⟨rfl, le_refl 0, by omega⟩]
  · have hmax : max 0 r.x = r.x := max_eq_right (le_of_lt hxpos)
    rw [endLine,
      if_neg (fun hc => by rw [hmax] at hc; exact absurd hc.1 (by omega)),
      hw, hmax, applyRowWrites_fill, if_neg (by omega)]
    exact hch

/-- C4 counterexample: three concrete renders refute the claim as stated.
With W = 10 and X = 20, the row 1234567890ab has display width 12, exceeding
W, yet the whole row lies left of the view and the last visible cell is a
space.  With W = 2 and X = 1 the non-empty row a茶c renders with the right
marker, not the left marker, in cell 0.  With W = 1 and X = 1 the row a茶
reaches past the right edge yet its last visible cell holds the left marker. -/
theorem c4_overflow_markers_counterexample :
    (10 < displayWidth "1234567890ab".toList ∧
      renderLineCells 10 20 "1234567890ab".toList ((10 : Int) - 1) ≠ '»') ∧
    ((0 : Nat) < 1 ∧ "a茶c".toList ≠ [] ∧
      renderLineCells 2 1 "a茶c".toList 0 ≠ '«') ∧
    (1 + 1 < displayWidth "a茶".toList ∧
      renderLineCells 1 1 "a茶".toList ((1 : Int) - 1) ≠ '»') := by
  decide

/-- C4 amended: for a region of width W at least 2, a row whose display width
exceeds W plus the horizontal scroll X renders with the right marker in its
last visible cell; and for W at least 3, X positive and a non-empty row, cell
0 of the rendered row holds the left marker. -/
theorem c4_overflow_markers_amended (W X : Nat) (line : List Char) :
    (2 ≤ W → W + X < displayWidth line →
      renderLineCells W X line ((W : Int) - 1) = '»') ∧
    (3 ≤ W → 0 < X → line ≠ [] →
      renderLineCells W X line 0 = '«') := by
  constructor
  · intro hW hwide
    rw [renderLineCells, renderLineWrites, applyRowWrites_append]
    have hinv0 : RightInv W (newRowView W X) (fun _ => ' ') := by
      refine ⟨rfl, le_refl 1, by simp [newRowView], Or.inl ?_⟩
      show -(X : Int) ≤ (W : Int)
      omega
    have hinv := rightInv_printAll W hW line (newRowView W X) (fun _ => ' ') hinv0
    have hx := printAll_x line (newRowView W X)
    have hx0 : (newRowView W X).x = -(X : Int) := rfl
    rw [hx0] at hx
    have hgt : (W : Int) < ((printAll (newRowView W X) line).1).x := by
      rw [hx]
      omega
    obtain ⟨hw2, _, _, hdisj⟩ := hinv
    have hch : applyRowWrites W (fun _ => ' ')
        (printAll (newRowView W X) line).2 ((W : Int) - 1) = '»' := by
      rcases hdisj with hle | hc
      · exact absurd hle (by omega)
      · exact hc
    exact rightInv_endLine W (by omega) _ _ hw2 hch hgt
  · intro hW hX hne
    rcases line with _ | ⟨c, cs⟩
    · exact absurd rfl hne
    rw [renderLineCells, renderLineWrites, printAll_cons, applyRowWrites_append,
      applyRowWrites_append]
    have h1 := leftInv_start W (by omega) (newRowView W X) (fun _ => ' ') c rfl
      (by show -(X : Int) < 0; omega)
    have h2 := leftInv_printAll W hW cs (printCh (newRowView W X) c).1 _ h1
    exact leftInv_endLine W (by omega) _ _ h2

theorem c4_witness :
    (2 ≤ 3 ∧ 3 + 1 < displayWidth "abcdef".toList ∧
      renderLineCells 3 1 "abcdef".toList ((3 : Int) - 1) = '»') ∧
    (3 ≤ 3 ∧ (0 : Nat) < 1 ∧ "abcdef".toList ≠ [] ∧
      renderLineCells 3 1 "abcdef".toList 0 = '«') := by
  refine ⟨⟨by decide, by decide, ?_⟩, ⟨by decide, by decide, by decide, ?_⟩⟩
  · exact (c4_overflow_markers_amended 3 1 "abcdef".toList).1 (by decide) (by decide)
  · exact (c4_overflow_markers_amended 3 1 "abcdef".toList).2 (by decide) (by decide)
      (by decide)

/-- C5: drawing the buffer 12345678喝茶zabc into a viewport with W = 10,
X = 0, Y = 0 renders row 0 as exactly the digits 1 to 8 followed by two right
markers: the wide rune reaching exactly column W makes the next rune, at
x = W, overwrite the last rune's two cells with the right marker. -/
theorem c5_wide_rune_right_edge_render :
    (drawToRows 10 1 0 0 "12345678喝茶zabc".toList).map
      (fun row => List.ofFn (fun i : Fin 10 => row ((i : Nat) : Int)))
      = ["12345678»»".toList] := by
  decide

/-- C10: for every buffer content and scroll origin, applying the writes of
BufView.DrawTo through TuiRegion clipping never changes a cell outside the
W by H rectangle, while PrintCh itself does emit writes at x at least W (here
the rune z of the C5 buffer, written at x = 12). -/
theorem c10_draw_confined_to_region :
    (∀ (w h x y : Nat) (content : List Char) (g : Int × Int → Char)
        (p : Int × Int),
      ¬(0 ≤ p.1 ∧ p.1 < (w : Int) ∧ 0 ≤ p.2 ∧ p.2 < (h : Int)) →
      applyGridWrites w h g (drawToWrites w h x y content) p = g p) ∧
    (∃ wr ∈ drawToWrites 10 1 0 0 "12345678喝茶zabc".toList,
      (10 : Int) ≤ wr.1) := by
  constructor
  · intro w h x y content g p hp
    generalize drawToWrites w h x y content = ws
    induction ws generalizing g with
    | nil => rfl
    | cons a l ih =>
      have hcons : applyGridWrites w h g (a :: l)
          = applyGridWrites w h (applyGridWrite w h g a) l := rfl
      rw [hcons, ih (applyGridWrite w h g a)]
      show (if p.1 = a.1 ∧ p.2 = a.2.1 ∧ 0 ≤ a.1 ∧ a.1 < (w : Int)
          ∧ 0 ≤ a.2.1 ∧ a.2.1 < (h : Int) then a.2.2 else g p) = g p
      rw [if_neg]
      rintro ⟨h1, h2, h3, h4, h5, h6⟩
      exact hp ⟨h1 ▸ h3, h1 ▸ h4, h2 ▸ h5, h2 ▸ h6⟩
  · exact ⟨(12, 0, 'z'), by decide, by decide⟩

theorem c10_witness :
    applyGridWrites 10 1 (fun _ => 'Q')
      (drawToWrites 10 1 0 0 "12345678喝茶zabc".toList) (15, 0) = 'Q' :=
  c10_draw_confined_to_region.1 10 1 0 0 "12345678喝茶zabc".toList
    (fun _ => 'Q') (15, 0) (by decide)

end Up
